import Mathlib

/-!
Verification of the DRBM (discriminative restricted Boltzmann machine)
implementation in drbm.py.  The Theano expressions are embedded by their
eager dataflow semantics: matrices are functions out of Fin-indexed types,
the pseudo-random streams are threaded explicitly, and code paths that
fault at run time (missing arguments, out-of-range indexing) are modelled
in an Except monad.
-/

namespace DRBMSpec

noncomputable section

open Finset

/-- Row-major real matrix with m rows and n columns, as in numpy/theano. -/
abbrev Mat (m n : ℕ) := Fin m → Fin n → ℝ

/-- Real vector of length n. -/
abbrev Vec (n : ℕ) := Fin n → ℝ

/-- Logistic sigmoid, T.nnet.sigmoid. -/
def sigmoid (x : ℝ) : ℝ := Real.exp x / (1 + Real.exp x)

/-- Softplus log(1+exp x), T.nnet.softplus. -/
def softplus (x : ℝ) : ℝ := Real.log (1 + Real.exp x)

/-- Parameter store of the DRBM class: pairwise weights W (n_visible x
n_hidden), hidden/visible biases, label coupling U (n_label x n_hidden),
label bias, and the generative/discriminative trade-off alpha. -/
structure DRBM (nv nh nl : ℕ) where
  W : Mat nv nh
  hbias : Vec nh
  vbias : Vec nv
  U : Mat nl nh
  labbias : Vec nl
  alpha : ℝ

/-- Matrix product T.dot(X, Y) for X : m x k and Y : k x n. -/
def dotMM {m k n : ℕ} (X : Mat m k) (Y : Mat k n) : Mat m n :=
  fun i j => ∑ t, X i t * Y t j

/-- Product with a transpose, T.dot(X, Y.T) for X : m x k and Y : n x k. -/
def dotMMT {m k n : ℕ} (X : Mat m k) (Y : Mat n k) : Mat m n :=
  fun i j => ∑ t, X i t * Y j t

/-- Matrix-vector product T.dot(X, y) collapsing the column dimension. -/
def dotMV {m k : ℕ} (X : Mat m k) (y : Vec k) : Vec m :=
  fun i => ∑ t, X i t * y t

/-- Mean of a length-n vector, T.mean on a 1-d tensor. -/
def vecMean {n : ℕ} (v : Vec n) : ℝ := (∑ i, v i) / (n : ℝ)

/-- Mean of all entries of a matrix, T.mean on a 2-d tensor. -/
def matMean {m n : ℕ} (M : Mat m n) : ℝ := (∑ i, ∑ j, M i j) / ((m * n : ℕ) : ℝ)

/-- Sum of all entries of a matrix, T.sum with no axis argument. -/
def matSum {m n : ℕ} (M : Mat m n) : ℝ := ∑ i, ∑ j, M i j

/-- Free energy of drbm.py (free_energy): wx_b = v.W + hbias + lab.U,
the hidden term sums softplus(wx_b) over the hidden axis, the label term
is lab.labbias, and the result is minus both, one scalar per batch row. -/
def free_energy {nv nh nl b : ℕ} (m : DRBM nv nh nl)
    (v_sample : Mat b nv) (lab_sample : Mat b nl) : Vec b :=
  fun i =>
    -(∑ j, softplus (dotMM v_sample m.W i j + m.hbias j + dotMM lab_sample m.U i j))
      - dotMV lab_sample m.labbias i

/-- Free energy as worded in the specification: per row,
minus the sum over hidden units j of softplus(hbias_j + (v.W)_j + (lab.U)_j)
minus lab.labbias. -/
def free_energy_spec {nv nh nl b : ℕ} (m : DRBM nv nh nl)
    (v : Mat b nv) (lab : Mat b nl) : Vec b :=
  fun i =>
    -(∑ j, softplus (m.hbias j + (∑ k, v i k * m.W k j) + (∑ y, lab i y * m.U y j)))
      - ∑ y, lab i y * m.labbias y

/-- Python run-time errors raised by the faulting code paths. -/
inductive PyErr where
  | typeError : PyErr
  | indexError : PyErr
  | valueError : PyErr
deriving DecidableEq

/-- Pseudo-random state: the theano_rng stream (used by the binomial
samplers) and the numpy_rng stream (used by numpy_rng.rand in the label
sampler), each with its read position. -/
structure Rng where
  theanoStream : ℕ → ℝ
  theanoPos : ℕ
  numpyStream : ℕ → ℝ
  numpyPos : ℕ

/-- Draw an m x n block of uniforms from the theano stream, as consumed by
theano_rng.binomial(size=(m, n), n=1, p=...). -/
def theanoUniforms (m n : ℕ) (r : Rng) : Mat m n × Rng :=
  (fun i j => r.theanoStream (r.theanoPos + i.val * n + j.val),
   { r with theanoPos := r.theanoPos + m * n })

/-- Draw m uniforms from the numpy stream, numpy_rng.rand(m, 1). -/
def numpyUniforms (m : ℕ) (r : Rng) : (Fin m → ℝ) × Rng :=
  (fun i => r.numpyStream (r.numpyPos + i.val),
   { r with numpyPos := r.numpyPos + m })

/-- Bernoulli draw with success probability p from one uniform u: the
result of theano_rng.binomial(n=1, p=p) for one unit. -/
def bernoulli (u p : ℝ) : ℝ := if u < p then 1 else 0

/-- Propagation of visible and label activation to the hidden layer
(propup): pre-activation vis.W + hbias + lab.U and its sigmoid. -/
def propup {nv nh nl b : ℕ} (m : DRBM nv nh nl)
    (vis : Mat b nv) (lab : Mat b nl) : Mat b nh × Mat b nh :=
  let pre : Mat b nh := fun i j => dotMM vis m.W i j + m.hbias j + dotMM lab m.U i j
  (pre, fun i j => sigmoid (pre i j))

/-- Hidden sampling given visible and label (sample_h_given_v): propup,
then an independent Bernoulli draw per hidden unit. -/
def sample_h_given_v {nv nh nl b : ℕ} (m : DRBM nv nh nl)
    (v0_sample : Mat b nv) (l0_sample : Mat b nl) (r : Rng) :
    Mat b nh × Mat b nh × Mat b nh × Rng :=
  let pm := propup m v0_sample l0_sample
  let ur := theanoUniforms b nh r
  (pm.1, pm.2, fun i j => bernoulli (ur.1 i j) (pm.2 i j), ur.2)

/-- Propagation of hidden activation down to the visible layer (propdown):
pre-activation hid.W^T + vbias and its sigmoid. -/
def propdown {nv nh nl b : ℕ} (m : DRBM nv nh nl) (hid : Mat b nh) :
    Mat b nv × Mat b nv :=
  let pre : Mat b nv := fun i j => dotMMT hid m.W i j + m.vbias j
  (pre, fun i j => sigmoid (pre i j))

/-- Visible sampling given hidden (sample_v_given_h): propdown, then an
independent Bernoulli draw per visible unit. -/
def sample_v_given_h {nv nh nl b : ℕ} (m : DRBM nv nh nl)
    (h0_sample : Mat b nh) (r : Rng) :
    Mat b nv × Mat b nv × Mat b nv × Rng :=
  let pm := propdown m h0_sample
  let ur := theanoUniforms b nv r
  (pm.1, pm.2, fun i j => bernoulli (ur.1 i j) (pm.2 i j), ur.2)

/-- Propagation of hidden activation to the label layer (propdown_label):
pre_norm_activation = exp(hid.U^T + labbias), then row normalization. -/
def propdown_label {nv nh nl b : ℕ} (m : DRBM nv nh nl) (hid : Mat b nh) :
    Mat b nl × Mat b nl :=
  let pre : Mat b nl := fun i y => Real.exp (dotMMT hid m.U i y + m.labbias y)
  (pre, fun i y => pre i y / ∑ z, pre i z)

/-- Cumulative sum of a probability row, theano cumsum along axis 1. -/
def cumsumRow {n : ℕ} (p : Vec n) (y : Fin n) : ℝ := ∑ z ∈ Finset.Iic y, p z

/-- Smallest index whose cumulative probability is at least the draw:
numpy.min(numpy.where(numpy.less_equal(draw, cumsum_row))), or none when
no index qualifies (numpy.min of an empty selection raises). -/
def selectIdx {n : ℕ} (p : Vec n) (d : ℝ) : Option (Fin n) :=
  let s := Finset.univ.filter (fun y => d ≤ cumsumRow p y)
  if h : s.Nonempty then some (s.min' h) else none

/-- One-hot row with a 1 at position i, the row written by
neg_labs[jj, index] = 1 on a zero-initialised buffer. -/
def oneHotRow {n : ℕ} (i : Fin n) : Vec n := fun y => if y = i then 1 else 0

/-- Sequential collection of per-row results, the semantics of the
Python for-loop over the buffer rows: the first raised error aborts the
whole computation, otherwise all rows are produced in order. -/
def collectRows {β : Type} : List (Except PyErr β) → Except PyErr (List β)
  | [] => Except.ok []
  | Except.error e :: _ => Except.error e
  | Except.ok y :: xs => (collectRows xs).map (fun ys => y :: ys)

/-- Label sampling (sample_lab_given_h).  The mean comes from
propdown_label; the sample is rebuilt eagerly: one uniform per row is
drawn (numpy_rng.rand(batch_size, 1) with batch_size hardcoded to 20),
and for each of the 20 buffer rows the row jj of the cumulative sums is
read (IndexError when the input has fewer than 20 rows) and the smallest
index with cumsum at least the draw is set to one (ValueError from
numpy.min on an empty selection when no index qualifies). -/
def sample_lab_given_h {nv nh nl b : ℕ} (m : DRBM nv nh nl)
    (h0_sample : Mat b nh) (r : Rng) :
    Except PyErr (Mat b nl × Mat b nl × List (Vec nl) × Rng) :=
  let pm := propdown_label m h0_sample
  let ur := numpyUniforms 20 r
  (collectRows ((List.finRange 20).map (fun jj =>
      if hjj : jj.val < b then
        match selectIdx (pm.2 ⟨jj.val, hjj⟩) (ur.1 jj) with
        | some i => Except.ok (oneHotRow i)
        | none => Except.error PyErr.valueError
      else Except.error PyErr.indexError))).map
    (fun rows => (pm.1, pm.2, rows, ur.2))

/-- One hidden-started Gibbs step (gibbs_hvh): visible from the hidden
state, hidden from the fresh visible sample and the old label, then label
from the fresh hidden sample; all pre-activations, means and samples are
returned. -/
def gibbs_hvh {nv nh nl b : ℕ} (m : DRBM nv nh nl)
    (h0_sample : Mat b nh) (l0_sample : Mat b nl) (r : Rng) :
    Except PyErr (Mat b nv × Mat b nv × Mat b nv ×
      Mat b nh × Mat b nh × Mat b nh ×
      Mat b nl × Mat b nl × List (Vec nl) × Rng) :=
  let sv := sample_v_given_h m h0_sample r
  let sh := sample_h_given_v m sv.2.2.1 l0_sample sv.2.2.2
  (sample_lab_given_h m sh.2.2.1 sh.2.2.2).map
    (fun sl => (sv.1, sv.2.1, sv.2.2.1, sh.1, sh.2.1, sh.2.2.1,
      sl.1, sl.2.1, sl.2.2.1, sl.2.2.2))

/-- Python call of sample_h_given_v with the label argument missing.  The
first statement of gibbs_vhv invokes self.sample_h_given_v(v0_sample)
although the signature (updated for the discriminative model) is
sample_h_given_v(self, v0_sample, l0_sample), so the call raises
TypeError before any sampling happens. -/
def sample_h_given_v_missing_label {nv nh nl b : ℕ} (_m : DRBM nv nh nl)
    (_v0_sample : Mat b nv) (_r : Rng) :
    Except PyErr (Mat b nh × Mat b nh × Mat b nh × Rng) :=
  Except.error PyErr.typeError

/-- One visible-started Gibbs step (gibbs_vhv) as written in the source:
hidden from the visible (through the faulting one-argument call), then
visible from the hidden sample, then label from the same hidden sample. -/
def gibbs_vhv {nv nh nl b : ℕ} (m : DRBM nv nh nl)
    (v0_sample : Mat b nv) (r : Rng) :
    Except PyErr (Mat b nh × Mat b nh × Mat b nh ×
      Mat b nv × Mat b nv × Mat b nv ×
      Mat b nl × Mat b nl × List (Vec nl) × Rng) := do
  let sh ← sample_h_given_v_missing_label m v0_sample r
  let sv := sample_v_given_h m sh.2.2.1 sh.2.2.2
  let sl ← sample_lab_given_h m sh.2.2.1 sv.2.2.2
  pure (sh.1, sh.2.1, sh.2.2.1, sv.1, sv.2.1, sv.2.2.1,
    sl.1, sl.2.1, sl.2.2.1, sl.2.2.2)

/-- Seed stage of get_cost_updates: the positive-phase hidden units are
sampled from the data; the hidden chain seed is that sample when
persistent is None and the persistent buffer otherwise; the label chain
seed is the input label when neglab is None and the neglab buffer
otherwise. -/
def get_cost_updates_seeds {nv nh nl b : ℕ} (m : DRBM nv nh nl)
    (input : Mat b nv) (input_label : Mat b nl)
    (persistent : Option (Mat b nh)) (neglab : Option (Mat b nl)) (r : Rng) :
    Mat b nh × Mat b nl :=
  let ph := sample_h_given_v m input input_label r
  (match persistent with | none => ph.2.2.1 | some p => p,
   match neglab with | none => input_label | some q => q)

/-- Eager value semantics of precompute_thingy: an (n_label, batch,
n_hidden) array whose every label slice is v.W + hbias (the U
contribution is commented out in the source). -/
def precompute_thingy {nv nh nl b : ℕ} (m : DRBM nv nh nl)
    (v_sample : Mat b nv) : Fin nl → Mat b nh :=
  fun _ i j => dotMM v_sample m.W i j + m.hbias j

/-- Eager value semantics of sample_y_given_x: neg_free_energy is minus
the softplus sums of the precomputed array over axis 1 (the batch axis),
transposed, minus labbias, an (n_hidden, n_label) array; it is
exponentiated after subtracting its overall mean, and the first
batch_size rows (the normalisation loop runs over range(batch_size)) are
divided by their row sums.  The batch size equals the row count b of
v_sample, as forced by the slice assignment in precompute_thingy. -/
def sample_y_given_x {nv nh nl b : ℕ} (m : DRBM nv nh nl)
    (v_sample : Mat b nv) : Mat nh nl :=
  let pc := precompute_thingy m v_sample
  let negF : Mat nh nl := fun j y => -(∑ i, softplus (pc y i j)) - m.labbias y
  let negFexp : Mat nh nl := fun j y => Real.exp (negF j y - matMean negF)
  let sumAll : Vec nh := fun j => ∑ y, negFexp j y
  fun j y => if j.val < b then negFexp j y / sumAll j else negFexp j y

/-- Discriminative cost of get_cost_updates:
T.mean(T.sum(input_label - y_sampled)).  T.sum with no axis argument adds
up every entry of the matrix, so the outer T.mean acts on a 0-d tensor
and is the identity.  The elementwise subtraction forces the batch size
to equal n_hidden, since y_sampled has n_hidden rows. -/
def cost_discriminative {nv nh nl : ℕ} (m : DRBM nv nh nl)
    (input_label : Mat nh nl) (chain_end : Mat nh nv) : ℝ :=
  matSum (fun i y => input_label i y - sample_y_given_x m chain_end i y)

/-- Discriminative cost as worded in the specification: the mean over the
batch of the per-row sums of (true label minus predicted distribution). -/
def cost_discriminative_spec {nv nh nl : ℕ} (m : DRBM nv nh nl)
    (input_label : Mat nh nl) (chain_end : Mat nh nv) : ℝ :=
  (∑ i, ∑ y, (input_label i y - sample_y_given_x m chain_end i y)) / ((nh : ℕ) : ℝ)

/-- Scalar cost of the score stage of get_cost_updates: the
discriminative cost plus alpha times the generative cost, the latter
being the mean free energy of the data minus the mean free energy of the
chain end. -/
def get_cost_updates_cost {nv nh nl : ℕ} (m : DRBM nv nh nl)
    (input : Mat nh nv) (input_label : Mat nh nl)
    (chain_end : Mat nh nv) (chain_end_labels : Mat nh nl) : ℝ :=
  cost_discriminative m input_label chain_end +
    m.alpha * (vecMean (free_energy m input input_label) -
      vecMean (free_energy m chain_end chain_end_labels))

/-- Reconstruction cross-entropy (get_reconstruction_cost): mean over the
batch of the row sums of the binary cross-entropy computed from the
pre-sigmoid visible activation. -/
def get_reconstruction_cost {nv nh nl b : ℕ} (_m : DRBM nv nh nl)
    (input : Mat b nv) (pre_sigmoid_nv : Mat b nv) : ℝ :=
  vecMean (fun i => ∑ j,
    (input i j * Real.log (sigmoid (pre_sigmoid_nv i j)) +
      (1 - input i j) * Real.log (1 - sigmoid (pre_sigmoid_nv i j))))

/-- Python call of free_energy with the label argument missing.
get_pseudo_likelihood_cost invokes self.free_energy(xi) although the
discriminative signature is free_energy(self, v_sample, lab_sample), so
the call raises TypeError. -/
def free_energy_missing_label {nv nh nl b : ℕ} (_m : DRBM nv nh nl)
    (_v_sample : Mat b nv) : Except PyErr (Vec b) :=
  Except.error PyErr.typeError

/-- Rounding of T.round, which rounds halves to the nearest even integer. -/
def roundHalfEven (x : ℝ) : ℝ :=
  if Int.fract x = 1 / 2 then
    (if Even ⌊x⌋ then (⌊x⌋ : ℝ) else (⌊x⌋ : ℝ) + 1)
  else (round x : ℤ)

/-- T.set_subtensor on one column: replace column jidx of M by v. -/
def set_subtensor_col {b n : ℕ} (M : Mat b n) (jidx : Fin n) (v : Vec b) :
    Mat b n :=
  fun i j => if j = jidx then v i else M i j

/-- Pseudo-likelihood monitoring cost (get_pseudo_likelihood_cost): round
the input, score it with free_energy — called with the label argument
missing, so the call faults; the remaining steps (flip bit bit_i_idx,
rescore, average n_visible times the log-sigmoid of the free-energy
difference, advance the bit index modulo n_visible) are unreachable. -/
def get_pseudo_likelihood_cost {nv nh nl b : ℕ} (m : DRBM nv nh nl)
    (input : Mat b nv) (bit_i_idx : Fin nv) : Except PyErr (ℝ × Fin nv) := do
  let xi : Mat b nv := fun i j => roundHalfEven (input i j)
  let fe_xi ← free_energy_missing_label m xi
  let xi_flip := set_subtensor_col xi bit_i_idx (fun i => 1 - xi i bit_i_idx)
  let fe_xi_flip ← free_energy_missing_label m xi_flip
  let cost := vecMean (fun i => (nv : ℝ) * Real.log (sigmoid (fe_xi_flip i - fe_xi i)))
  pure (cost, ⟨(bit_i_idx.val + 1) % nv, Nat.mod_lt _ bit_i_idx.pos⟩)

/-- Monitoring branch of get_cost_updates: with a persistent buffer the
pseudo-likelihood proxy is reported (and the update map would overwrite
the buffer with the terminal hidden sample); without one the
reconstruction cross-entropy is reported. -/
def get_cost_updates_monitoring {nv nh nl b : ℕ} (m : DRBM nv nh nl)
    (persistent : Option (Mat b nh)) (input : Mat b nv)
    (pre_sigmoid_nv : Mat b nv) (bit_i_idx : Fin nv) : Except PyErr ℝ :=
  match persistent with
  | some _ => (get_pseudo_likelihood_cost m input bit_i_idx).map Prod.fst
  | none => Except.ok (get_reconstruction_cost m input pre_sigmoid_nv)

/-- Inverse-transform semantics of numpy_rng.uniform(low, high): one raw
uniform u from the unit interval is stretched to low + (high-low)*u. -/
def uniformDraw (low high u : ℝ) : ℝ := low + (high - low) * u

/-- Default initialiser of the label-coupling matrix U in DRBM.__init__:
shape (n_label, n_hidden), drawn uniformly with bound
4*sqrt(6/(n_visible + n_label)). -/
def initial_U (nv nl nh : ℕ) (u : Fin nl → Fin nh → ℝ) : Mat nl nh :=
  fun i j =>
    uniformDraw (-(4 * Real.sqrt (6 / ((nv : ℝ) + (nl : ℝ)))))
      (4 * Real.sqrt (6 / ((nv : ℝ) + (nl : ℝ)))) (u i j)

/-- Default initialiser of the weight matrix W in DRBM.__init__: shape
(n_visible, n_hidden), drawn uniformly with bound
4*sqrt(6/(n_hidden + n_visible)). -/
def initial_W (nv nh : ℕ) (u : Fin nv → Fin nh → ℝ) : Mat nv nh :=
  fun i j =>
    uniformDraw (-(4 * Real.sqrt (6 / ((nh : ℝ) + (nv : ℝ)))))
      (4 * Real.sqrt (6 / ((nh : ℝ) + (nv : ℝ)))) (u i j)

/-- Initialiser of U as worded in the specification: bound
4*sqrt(6/(n_label + n_hidden)), the two connected dimensions. -/
def initial_U_spec (nl nh : ℕ) (u : Fin nl → Fin nh → ℝ) : Mat nl nh :=
  fun i j =>
    uniformDraw (-(4 * Real.sqrt (6 / ((nl : ℝ) + (nh : ℝ)))))
      (4 * Real.sqrt (6 / ((nl : ℝ) + (nh : ℝ)))) (u i j)

/-- Default hidden bias: zeros(n_hidden). -/
def initial_hbias (nh : ℕ) : Vec nh := fun _ => 0

/-- Default visible bias: zeros(n_visible). -/
def initial_vbias (nv : ℕ) : Vec nv := fun _ => 0

/-- Default label bias: zeros(n_label). -/
def initial_labbias (nl : ℕ) : Vec nl := fun _ => 0

/-- Tiny one-unit model with every parameter supplied, used to evaluate
the differentiate stage concretely. -/
def model1 (w hb vb u lb a : ℝ) : DRBM 1 1 1 :=
  ⟨fun _ _ => w, fun _ => hb, fun _ => vb, fun _ _ => u, fun _ => lb, a⟩

/-- Constant 1 x 1 matrix. -/
def m11 (x : ℝ) : Mat 1 1 := fun _ _ => x

/-- All-zero one-unit model with alpha = 1/100. -/
def zeroModel : DRBM 1 1 1 := model1 0 0 0 0 0 (1 / 100)

/-- Pseudo-random state whose streams are identically zero. -/
def zeroRng : Rng := ⟨fun _ => 0, 0, fun _ => 0, 0⟩

/-- Zero hidden batch with 20 rows. -/
def h020 : Mat 20 1 := fun _ _ => 0

/-- All-zero model with one visible unit, two hidden units and one label
unit, alpha = 1/100. -/
def model210 : DRBM 1 2 1 :=
  ⟨fun _ _ => 0, fun _ => 0, fun _ => 0, fun _ _ => 0, fun _ => 0, 1 / 100⟩

/-- Label batch [[1], [0]] with two rows. -/
def L2 : Mat 2 1 := fun i _ => if i = 0 then 1 else 0

/-- Zero chain-end batch with two rows and one visible unit. -/
def chainEnd2 : Mat 2 1 := fun _ _ => 0

/-- Probability row [0.2, 0.8] from the specification's concrete case. -/
def lab02 : Vec 2 := ![0.2, 0.8]

/-- Claim C2: for every visible batch v and label batch lab, free_energy
returns per row the value -sum_j softplus(hbias_j + (v.W)_j + (lab.U)_j)
- lab.labbias, with the hidden contribution computed through the softplus
function. -/
theorem C2_free_energy_formula {nv nh nl b : ℕ} (m : DRBM nv nh nl)
    (v : Mat b nv) (lab : Mat b nl) (i : Fin b) :
    free_energy m v lab i = free_energy_spec m v lab i ∧
    (∀ x : ℝ, softplus x = Real.log (1 + Real.exp x)) := by
  refine ⟨?_, fun x => rfl⟩
  unfold free_energy free_energy_spec dotMM dotMV
  congr 2
  refine Finset.sum_congr rfl (fun j _ => ?_)
  congr 1
  ring

/-- Claim C3: one gibbs_hvh step on (h0, l0) samples a visible from h0
via sample_v_given_h, then a hidden from that fresh visible sample
together with the old label l0 via sample_h_given_v, then a label from
the fresh hidden sample via sample_lab_given_h, returning every
intermediate pre-activation, mean and sample; the middle hidden mean
explicitly couples the new visible sample with the old label l0. -/
theorem C3_gibbs_hvh_composition {nv nh nl b : ℕ} (m : DRBM nv nh nl)
    (h0 : Mat b nh) (l0 : Mat b nl) (r : Rng) :
    gibbs_hvh m h0 l0 r =
      (let sv := sample_v_given_h m h0 r
       let sh := sample_h_given_v m sv.2.2.1 l0 sv.2.2.2
       (sample_lab_given_h m sh.2.2.1 sh.2.2.2).map
         (fun sl => (sv.1, sv.2.1, sv.2.2.1, sh.1, sh.2.1, sh.2.2.1,
           sl.1, sl.2.1, sl.2.2.1, sl.2.2.2))) ∧
    (sample_h_given_v m (sample_v_given_h m h0 r).2.2.1 l0
        (sample_v_given_h m h0 r).2.2.2).2.1 =
      fun i j => sigmoid ((∑ k, (sample_v_given_h m h0 r).2.2.1 i k * m.W k j) +
        m.hbias j + (∑ y, l0 i y * m.U y j)) :=
  ⟨rfl, rfl⟩

/-- Claim C4: in get_cost_updates the negative chain's hidden seed is the
positive-phase hidden sample from the real data when persistent is
absent and the supplied persistent buffer otherwise, and the label seed
is the true input label when neglab is absent and the supplied neglab
buffer otherwise. -/
theorem C4_chain_seeds {nv nh nl b : ℕ} (m : DRBM nv nh nl)
    (input : Mat b nv) (input_label : Mat b nl) (r : Rng) :
    (∀ ng : Option (Mat b nl),
      (get_cost_updates_seeds m input input_label none ng r).1 =
        (sample_h_given_v m input input_label r).2.2.1) ∧
    (∀ (p : Mat b nh) (ng : Option (Mat b nl)),
      (get_cost_updates_seeds m input input_label (some p) ng r).1 = p) ∧
    (∀ ps : Option (Mat b nh),
      (get_cost_updates_seeds m input input_label ps none r).2 = input_label) ∧
    (∀ (ps : Option (Mat b nh)) (q : Mat b nl),
      (get_cost_updates_seeds m input input_label ps (some q) r).2 = q) :=
  ⟨fun _ => rfl, fun _ _ => rfl, fun _ => rfl, fun _ _ => rfl⟩

/-- Claim C7 (evidence of the defect): every call of gibbs_vhv raises
TypeError, because its first statement passes only the visible sample to
sample_h_given_v, whose signature also requires a label sample; shown
here at a concrete one-unit input. -/
theorem C7_gibbs_vhv_raises :
    gibbs_vhv zeroModel (m11 0) zeroRng = Except.error PyErr.typeError :=
  rfl

/-- Claim C9 (evidence of the defect): in persistent (PCD) mode the
monitoring cost comes from get_pseudo_likelihood_cost, which calls
free_energy with the label argument missing, so it raises TypeError
(shown at a concrete one-unit input and for every input); in CD mode the
monitoring cost is the reconstruction cross-entropy. -/
theorem C9_pcd_monitoring_raises :
    get_cost_updates_monitoring zeroModel (some (m11 0)) (m11 0) (m11 0) 0 =
      Except.error PyErr.typeError ∧
    (∀ {nv nh nl b : ℕ} (m : DRBM nv nh nl) (p : Mat b nh)
      (input pre : Mat b nv) (bit : Fin nv),
      get_cost_updates_monitoring m (some p) input pre bit =
        Except.error PyErr.typeError) ∧
    (∀ {nv nh nl b : ℕ} (m : DRBM nv nh nl) (input pre : Mat b nv)
      (bit : Fin nv),
      get_cost_updates_monitoring m none input pre bit =
        Except.ok (get_reconstruction_cost m input pre)) :=
  ⟨rfl, fun _ _ _ _ _ => rfl, fun _ _ _ _ => rfl⟩

/-- Claim C5 (counterexample): with the default sizes n_visible = 784,
n_hidden = 500, n_label = 2 and raw draw 1, the entry produced for U is
4*sqrt(6/786) — the code divides by n_visible + n_label — and not the
claimed 4*sqrt(6/502) built from n_label + n_hidden. -/
theorem C5_counterexample :
    initial_U 784 2 500 (fun _ _ => 1) 0 0 ≠
      initial_U_spec 2 500 (fun _ _ => 1) 0 0 := by
  unfold initial_U initial_U_spec uniformDraw
  have h1 : Real.sqrt (6 / ((784 : ℕ) + (2 : ℕ) : ℝ)) <
      Real.sqrt (6 / ((2 : ℕ) + (500 : ℕ) : ℝ)) := by
    apply Real.sqrt_lt_sqrt (by positivity)
    norm_num
  intro h
  have h2 : (4 : ℝ) * Real.sqrt (6 / ((784 : ℕ) + (2 : ℕ) : ℝ)) =
      4 * Real.sqrt (6 / ((2 : ℕ) + (500 : ℕ) : ℝ)) := by linarith [h, h1]
  nlinarith [h1, h2]

/-- Claim C5 as amended: U is drawn uniformly from the interval with
bound 4*sqrt(6/(n_visible + n_label)) — the code uses n_visible and
n_label, not the two connected dimensions — while W is drawn uniformly
from the interval with bound 4*sqrt(6/(n_visible + n_hidden)) and all
bias vectors initialise to zero; the uniform draws are the affine
stretch of raw unit draws onto those intervals. -/
theorem C5_initialization_amended (nv nl nh : ℕ)
    (u : Fin nl → Fin nh → ℝ) (w : Fin nv → Fin nh → ℝ) :
    (∀ i j, initial_U nv nl nh u i j =
      -(4 * Real.sqrt (6 / ((nv : ℝ) + (nl : ℝ)))) +
        8 * Real.sqrt (6 / ((nv : ℝ) + (nl : ℝ))) * u i j) ∧
    (∀ i j, initial_W nv nh w i j =
      -(4 * Real.sqrt (6 / ((nv : ℝ) + (nh : ℝ)))) +
        8 * Real.sqrt (6 / ((nv : ℝ) + (nh : ℝ))) * w i j) ∧
    (∀ i, initial_hbias nh i = 0) ∧
    (∀ i, initial_vbias nv i = 0) ∧
    (∀ i, initial_labbias nl i = 0) := by
  refine ⟨fun i j => ?_, fun i j => ?_, fun _ => rfl, fun _ => rfl, fun _ => rfl⟩
  · unfold initial_U uniformDraw
    ring
  · unfold initial_W uniformDraw
    rw [show ((nh : ℝ) + (nv : ℝ)) = ((nv : ℝ) + (nh : ℝ)) from add_comm _ _]
    ring

/-- Helper: on the two-hidden-unit model every predicted entry of
sample_y_given_x is 1, because with one label the normalisation loop
divides each of the first b = n_hidden rows by itself. -/
theorem sample_y_model210_eq_one (i : Fin 2) (y : Fin 1) :
    sample_y_given_x model210 chainEnd2 i y = 1 := by
  unfold sample_y_given_x precompute_thingy
  have hy : y = 0 := Subsingleton.elim _ _
  subst hy
  rw [if_pos i.isLt]
  simp only [Fin.sum_univ_one]
  exact div_self (Real.exp_ne_zero _)

/-- Claim C6 (counterexample): with the all-zero 1-visible, 2-hidden,
1-label model, label batch [[1], [0]] and a zero chain end, the
discriminative cost computed by the code is -1 while the claimed mean
over the batch of the per-row sums is -1/2. -/
theorem C6_counterexample :
    cost_discriminative model210 L2 chainEnd2 ≠
      cost_discriminative_spec model210 L2 chainEnd2 := by
  unfold cost_discriminative cost_discriminative_spec matSum
  simp only [sample_y_model210_eq_one, Fin.sum_univ_two, Fin.sum_univ_one]
  unfold L2
  norm_num

/-- Claim C6 as amended: the discriminative cost of get_cost_updates is
T.mean of T.sum with no axis, i.e. the total signed residual over all
entries of (true_label - predicted), which is the batch size (= n_hidden,
as forced by the elementwise subtraction) times the claimed mean over the
batch of the per-row sums. -/
theorem C6_discriminative_cost_amended {nv nh nl : ℕ} (m : DRBM nv nh nl)
    (input_label : Mat nh nl) (chain_end : Mat nh nv) :
    cost_discriminative m input_label chain_end =
      (nh : ℝ) * cost_discriminative_spec m input_label chain_end := by
  unfold cost_discriminative cost_discriminative_spec matSum
  rcases Nat.eq_zero_or_pos nh with h | h
  · subst h
    simp
  · rw [mul_comm, div_mul_cancel₀]
    exact_mod_cast h.ne'

/-- Helper: closed form of the score-stage cost on the one-unit model.
The discriminative part collapses to l - 1, since with one hidden unit
and one label the single predicted entry is normalised to 1. -/
theorem cost1_eval (w hb vb u lb a d l c cl : ℝ) :
    get_cost_updates_cost (model1 w hb vb u lb a) (m11 d) (m11 l) (m11 c) (m11 cl)
      = (l - 1) + a * ((-softplus (d * w + hb + l * u) - l * lb) -
          (-softplus (c * w + hb + cl * u) - cl * lb)) := by
  unfold get_cost_updates_cost cost_discriminative sample_y_given_x
    precompute_thingy free_energy matSum matMean vecMean dotMM dotMV model1 m11
  simp only [Fin.sum_univ_one, Fin.isValue, Nat.cast_one, mul_one, one_mul,
    Nat.lt_irrefl, Nat.zero_lt_one, if_true, div_one, sub_self, Real.exp_zero]
  rw [ite_self]

/-- Helper: derivative of softplus after a differentiable inner map. -/
theorem softplus_comp_hasDerivAt {g : ℝ → ℝ} {g' x : ℝ}
    (hg : HasDerivAt g g' x) :
    HasDerivAt (fun t => softplus (g t)) (sigmoid (g x) * g') x := by
  have h1 : HasDerivAt (fun t => 1 + Real.exp (g t)) (Real.exp (g x) * g') x :=
    (hg.exp).const_add 1
  have h2 := h1.log (by positivity)
  have h3 : Real.exp (g x) * g' / (1 + Real.exp (g x)) = sigmoid (g x) * g' := by
    unfold sigmoid
    ring
  unfold softplus
  rw [← h3]
  exact h2

/-- Helper: partial derivative of the one-unit cost in W at fixed chain
end. -/
theorem cost1_hasDerivAt_W (w hb vb u lb a d l c cl : ℝ) :
    HasDerivAt (fun t => get_cost_updates_cost (model1 t hb vb u lb a)
      (m11 d) (m11 l) (m11 c) (m11 cl))
      (a * (sigmoid (c * w + hb + cl * u) * c - sigmoid (d * w + hb + l * u) * d))
      w := by
  have e : (fun t => get_cost_updates_cost (model1 t hb vb u lb a)
      (m11 d) (m11 l) (m11 c) (m11 cl)) =
      fun t => (l - 1) + a * ((-softplus (d * t + hb + l * u) - l * lb) -
          (-softplus (c * t + hb + cl * u) - cl * lb)) :=
    funext fun t => cost1_eval t hb vb u lb a d l c cl
  rw [e]
  have hd1 : HasDerivAt (fun t : ℝ => d * t + hb + l * u) d w := by
    simpa using (((hasDerivAt_id w).const_mul d).add_const hb).add_const (l * u)
  have hd2 : HasDerivAt (fun t : ℝ => c * t + hb + cl * u) c w := by
    simpa using (((hasDerivAt_id w).const_mul c).add_const hb).add_const (cl * u)
  have hcomb := ((((softplus_comp_hasDerivAt hd1).neg.sub_const (l * lb)).sub
    ((softplus_comp_hasDerivAt hd2).neg.sub_const (cl * lb))).const_mul a).const_add
    (l - 1)
  convert hcomb using 1
  ring

/-- Helper: partial derivative of the one-unit cost in hbias at fixed
chain end. -/
theorem cost1_hasDerivAt_hbias (w hb vb u lb a d l c cl : ℝ) :
    HasDerivAt (fun t => get_cost_updates_cost (model1 w t vb u lb a)
      (m11 d) (m11 l) (m11 c) (m11 cl))
      (a * (sigmoid (c * w + hb + cl * u) - sigmoid (d * w + hb + l * u)))
      hb := by
  have e : (fun t => get_cost_updates_cost (model1 w t vb u lb a)
      (m11 d) (m11 l) (m11 c) (m11 cl)) =
      fun t => (l - 1) + a * ((-softplus (d * w + t + l * u) - l * lb) -
          (-softplus (c * w + t + cl * u) - cl * lb)) :=
    funext fun t => cost1_eval w t vb u lb a d l c cl
  rw [e]
  have hd1 : HasDerivAt (fun t : ℝ => d * w + t + l * u) 1 hb := by
    simpa using ((hasDerivAt_id hb).const_add (d * w)).add_const (l * u)
  have hd2 : HasDerivAt (fun t : ℝ => c * w + t + cl * u) 1 hb := by
    simpa using ((hasDerivAt_id hb).const_add (c * w)).add_const (cl * u)
  have hcomb := ((((softplus_comp_hasDerivAt hd1).neg.sub_const (l * lb)).sub
    ((softplus_comp_hasDerivAt hd2).neg.sub_const (cl * lb))).const_mul a).const_add
    (l - 1)
  convert hcomb using 1
  ring

/-- Helper: partial derivative of the one-unit cost in vbias at fixed
chain end; the free energy formula omits the visible-bias term, so the
cost is constant in vbias. -/
theorem cost1_hasDerivAt_vbias (w hb vb u lb a d l c cl : ℝ) :
    HasDerivAt (fun t => get_cost_updates_cost (model1 w hb t u lb a)
      (m11 d) (m11 l) (m11 c) (m11 cl)) 0 vb := by
  have e : (fun t => get_cost_updates_cost (model1 w hb t u lb a)
      (m11 d) (m11 l) (m11 c) (m11 cl)) =
      fun _ => (l - 1) + a * ((-softplus (d * w + hb + l * u) - l * lb) -
          (-softplus (c * w + hb + cl * u) - cl * lb)) :=
    funext fun t => cost1_eval w hb t u lb a d l c cl
  rw [e]
  exact hasDerivAt_const _ _

/-- Helper: partial derivative of the one-unit cost in U at fixed chain
end. -/
theorem cost1_hasDerivAt_U (w hb vb u lb a d l c cl : ℝ) :
    HasDerivAt (fun t => get_cost_updates_cost (model1 w hb vb t lb a)
      (m11 d) (m11 l) (m11 c) (m11 cl))
      (a * (sigmoid (c * w + hb + cl * u) * cl - sigmoid (d * w + hb + l * u) * l))
      u := by
  have e : (fun t => get_cost_updates_cost (model1 w hb vb t lb a)
      (m11 d) (m11 l) (m11 c) (m11 cl)) =
      fun t => (l - 1) + a * ((-softplus (d * w + hb + l * t) - l * lb) -
          (-softplus (c * w + hb + cl * t) - cl * lb)) :=
    funext fun t => cost1_eval w hb vb t lb a d l c cl
  rw [e]
  have hd1 : HasDerivAt (fun t : ℝ => d * w + hb + l * t) l u := by
    simpa using ((hasDerivAt_id u).const_mul l).const_add (d * w + hb)
  have hd2 : HasDerivAt (fun t : ℝ => c * w + hb + cl * t) cl u := by
    simpa using ((hasDerivAt_id u).const_mul cl).const_add (c * w + hb)
  have hcomb := ((((softplus_comp_hasDerivAt hd1).neg.sub_const (l * lb)).sub
    ((softplus_comp_hasDerivAt hd2).neg.sub_const (cl * lb))).const_mul a).const_add
    (l - 1)
  convert hcomb using 1
  ring

/-- Helper: partial derivative of the one-unit cost in labbias at fixed
chain end. -/
theorem cost1_hasDerivAt_labbias (w hb vb u lb a d l c cl : ℝ) :
    HasDerivAt (fun t => get_cost_updates_cost (model1 w hb vb u t a)
      (m11 d) (m11 l) (m11 c) (m11 cl)) (a * (cl - l)) lb := by
  have e : (fun t => get_cost_updates_cost (model1 w hb vb u t a)
      (m11 d) (m11 l) (m11 c) (m11 cl)) =
      fun t => (l - 1) + a * ((-softplus (d * w + hb + l * u) - l * t) -
          (-softplus (c * w + hb + cl * u) - cl * t)) :=
    funext fun t => cost1_eval w hb vb u t a d l c cl
  rw [e]
  have hd1 : HasDerivAt (fun t : ℝ => -softplus (d * w + hb + l * u) - l * t)
      (0 - l * 1) lb :=
    (hasDerivAt_const lb (-softplus (d * w + hb + l * u))).sub
      ((hasDerivAt_id lb).const_mul l)
  have hd2 : HasDerivAt (fun t : ℝ => -softplus (c * w + hb + cl * u) - cl * t)
      (0 - cl * 1) lb :=
    (hasDerivAt_const lb (-softplus (c * w + hb + cl * u))).sub
      ((hasDerivAt_id lb).const_mul cl)
  have hcomb := (((hd1.sub hd2).const_mul a).const_add (l - 1))
  convert hcomb using 1
  ring

/-- Helper: the logistic sigmoid at 0 is one half. -/
theorem sigmoid_zero_eq : sigmoid 0 = 1 / 2 := by
  unfold sigmoid
  rw [Real.exp_zero]
  norm_num

/-- Helper: the logistic sigmoid at 1 exceeds one half. -/
theorem sigmoid_one_gt_half : 1 / 2 < sigmoid 1 := by
  unfold sigmoid
  have h := Real.add_one_lt_exp (x := 1) (by norm_num)
  rw [div_lt_div_iff₀ (by norm_num) (by positivity)]
  nlinarith [h]

/-- Claim C1 as amended: on the one-unit model, the reported gradient of
the differentiate stage is the partial derivative of the scalar cost in
each of the five parameters W, hbias, vbias, U, labbias with the sampled
chain end (c, cl) held fixed — no gradient flows through the sampling
path — but the closed forms depend on the value c of the chain-end
visible sample, so perturbing the chain endpoint does change them. -/
theorem C1_gradient_amended (w hb vb u lb a d l c cl : ℝ) :
    deriv (fun t => get_cost_updates_cost (model1 t hb vb u lb a)
        (m11 d) (m11 l) (m11 c) (m11 cl)) w =
      a * (sigmoid (c * w + hb + cl * u) * c - sigmoid (d * w + hb + l * u) * d) ∧
    deriv (fun t => get_cost_updates_cost (model1 w t vb u lb a)
        (m11 d) (m11 l) (m11 c) (m11 cl)) hb =
      a * (sigmoid (c * w + hb + cl * u) - sigmoid (d * w + hb + l * u)) ∧
    deriv (fun t => get_cost_updates_cost (model1 w hb t u lb a)
        (m11 d) (m11 l) (m11 c) (m11 cl)) vb = 0 ∧
    deriv (fun t => get_cost_updates_cost (model1 w hb vb t lb a)
        (m11 d) (m11 l) (m11 c) (m11 cl)) u =
      a * (sigmoid (c * w + hb + cl * u) * cl - sigmoid (d * w + hb + l * u) * l) ∧
    deriv (fun t => get_cost_updates_cost (model1 w hb vb u t a)
        (m11 d) (m11 l) (m11 c) (m11 cl)) lb = a * (cl - l) :=
  ⟨(cost1_hasDerivAt_W w hb vb u lb a d l c cl).deriv,
   (cost1_hasDerivAt_hbias w hb vb u lb a d l c cl).deriv,
   (cost1_hasDerivAt_vbias w hb vb u lb a d l c cl).deriv,
   (cost1_hasDerivAt_U w hb vb u lb a d l c cl).deriv,
   (cost1_hasDerivAt_labbias w hb vb u lb a d l c cl).deriv⟩

/-- Claim C1 (counterexample): on the one-unit model with W = 1, the
hbias gradient reported by the differentiate stage changes when the
chain-end visible sample alone is perturbed from 0 to 1, so the reported
parameter gradients are not invariant under perturbing the sampled chain
endpoint. -/
theorem C1_counterexample :
    deriv (fun t => get_cost_updates_cost (model1 1 t 0 0 0 (1 / 100))
        (m11 0) (m11 0) (m11 0) (m11 0)) 0 ≠
      deriv (fun t => get_cost_updates_cost (model1 1 t 0 0 0 (1 / 100))
        (m11 0) (m11 0) (m11 1) (m11 0)) 0 := by
  have h0 := (cost1_hasDerivAt_hbias 1 0 0 0 0 (1 / 100) 0 0 0 0).deriv
  have h1 := (cost1_hasDerivAt_hbias 1 0 0 0 0 (1 / 100) 0 0 1 0).deriv
  rw [h0, h1]
  norm_num [sigmoid_zero_eq]
  have h2 := sigmoid_one_gt_half
  intro hgoal
  nlinarith [h2, hgoal]

/-- Helper: a successful selectIdx result satisfies the draw bound and is
minimal among qualifying indices. -/
theorem selectIdx_spec {n : ℕ} (p : Vec n) (d : ℝ) (i : Fin n)
    (h : selectIdx p d = some i) :
    d ≤ cumsumRow p i ∧ ∀ j : Fin n, j < i → ¬ d ≤ cumsumRow p j := by
  unfold selectIdx at h
  dsimp only at h
  split at h
  case isTrue hs =>
    have hi : (Finset.univ.filter (fun y => d ≤ cumsumRow p y)).min' hs = i :=
      Option.some.inj h
    constructor
    · have hmem := Finset.min'_mem _ hs
      rw [hi] at hmem
      exact (Finset.mem_filter.mp hmem).2
    · intro j hj hdj
      have hjmem : j ∈ Finset.univ.filter (fun y => d ≤ cumsumRow p y) := by
        simp [hdj]
      have := Finset.min'_le _ j hjmem
      rw [hi] at this
      exact absurd this (not_le.mpr hj)
  case isFalse => exact absurd h (by simp)

/-- Helper: selectIdx succeeds as soon as one index qualifies. -/
theorem selectIdx_isSome {n : ℕ} (p : Vec n) (d : ℝ) (y : Fin n)
    (hy : d ≤ cumsumRow p y) : ∃ i, selectIdx p d = some i := by
  unfold selectIdx
  have hs : (Finset.univ.filter (fun z => d ≤ cumsumRow p z)).Nonempty :=
    ⟨y, by simp [hy]⟩
  rw [dif_pos hs]
  exact ⟨_, rfl⟩

/-- Helper: the probability rows of propdown_label sum to one. -/
theorem propdown_label_row_sum {nv nh nl b : ℕ} (m : DRBM nv nh nl)
    (hid : Mat b nh) (i : Fin b) (hnl : 0 < nl) :
    ∑ y, (propdown_label m hid).2 i y = 1 := by
  unfold propdown_label
  rw [← Finset.sum_div]
  refine div_self (ne_of_gt (Finset.sum_pos (fun z _ => Real.exp_pos _) ?_))
  have : Nonempty (Fin nl) := ⟨⟨0, hnl⟩⟩
  exact Finset.univ_nonempty

/-- Helper: the cumulative sum at the final index is the full row sum. -/
theorem cumsumRow_last {n : ℕ} (p : Vec n) (hn : 0 < n) :
    cumsumRow p ⟨n - 1, by omega⟩ = ∑ z, p z := by
  unfold cumsumRow
  have huniv : Finset.Iic (⟨n - 1, by omega⟩ : Fin n) = Finset.univ := by
    ext z
    have hz := z.isLt
    simp [Fin.le_def]
    omega
  rw [huniv]

/-- Helper: a list of ok results collects to the ok list of its values,
keeping length and membership. -/
theorem collectRows_ok {β : Type} (l : List (Except PyErr β))
    (h : ∀ x ∈ l, ∃ y, x = Except.ok y) :
    ∃ ys, collectRows l = Except.ok ys ∧ ys.length = l.length ∧
      ∀ y ∈ ys, Except.ok y ∈ l := by
  induction l with
  | nil => exact ⟨[], rfl, rfl, by simp⟩
  | cons x xs ih =>
    obtain ⟨y, rfl⟩ := h x (by simp)
    obtain ⟨ys, hys, hlen, hmem⟩ := ih (fun z hz => h z (by simp [hz]))
    refine ⟨y :: ys, ?_, by simp [hlen], ?_⟩
    · unfold collectRows
      rw [hys]
      rfl
    · intro z hz
      rcases List.mem_cons.mp hz with hz | hz
      · subst hz
        simp
      · simp [hmem z hz]

/-- Helper: positional correspondence through collectRows. -/
theorem collectRows_get {β : Type} :
    ∀ (l : List (Except PyErr β)) (ys : List β),
      collectRows l = Except.ok ys →
      ∀ (k : ℕ) (x : Except PyErr β), l.get? k = some x →
        ∃ y, ys.get? k = some y ∧ x = Except.ok y := by
  intro l
  induction l with
  | nil =>
    intro ys _ k x hk
    simp at hk
  | cons a as ih =>
    intro ys hys k x hk
    cases a with
    | error e => exact absurd hys (by simp [collectRows])
    | ok y0 =>
      unfold collectRows at hys
      cases has : collectRows as with
      | error e =>
        rw [has] at hys
        exact absurd hys (by simp [Except.map])
      | ok ys0 =>
        rw [has] at hys
        have : ys = y0 :: ys0 := by
          have := Option.some.inj (congrArg (fun z => z.toOption) hys)
          simpa using this.symm
        subst this
        cases k with
        | zero =>
          simp at hk
          subst hk
          exact ⟨y0, by simp, rfl⟩
        | succ k' =>
          simp only [List.get?_cons_succ] at hk ⊢
          exact ih ys0 has k' x hk

/-- Helper: with one label unit and the all-zero parameters every
probability row of propdown_label is the constant row 1. -/
theorem propdown_label_const_one {b : ℕ} (h0 : Mat b 1) (i : Fin b) :
    (propdown_label zeroModel h0).2 i = fun _ : Fin 1 => 1 := by
  funext y
  unfold propdown_label zeroModel model1 dotMMT
  simp [Fin.sum_univ_one]

/-- Helper: on the constant probability row 1 over one label, the draw 0
selects index 0. -/
theorem selectIdx_const_one : selectIdx (fun _ : Fin 1 => (1 : ℝ)) 0 = some 0 := by
  unfold selectIdx
  dsimp only
  have h0mem : (0 : Fin 1) ∈ Finset.univ.filter
      (fun y : Fin 1 => (0 : ℝ) ≤ cumsumRow (fun _ => 1) y) :=
    Finset.mem_filter.mpr ⟨Finset.mem_univ _, by norm_num [cumsumRow]⟩
  rw [dif_pos ⟨0, h0mem⟩]
  exact congrArg some (Subsingleton.elim _ _)

/-- Helper: collecting a mapped list all of whose images are ok yields
the list of the underlying values. -/
theorem collectRows_map_ok {α β : Type} (l : List α) (f : α → Except PyErr β)
    (g : α → β) (h : ∀ x ∈ l, f x = Except.ok (g x)) :
    collectRows (l.map f) = Except.ok (l.map g) := by
  induction l with
  | nil => rfl
  | cons a as ih =>
    rw [List.map_cons, List.map_cons, h a (by simp)]
    unfold collectRows
    rw [ih (fun x hx => h x (by simp [hx]))]
    rfl

/-- Helper: full concrete run of the label sampler on the zero model with
a 20-row hidden batch and zero draws: every buffer row selects index 0. -/
theorem sample_lab_h020_eval :
    sample_lab_given_h zeroModel h020 zeroRng =
      Except.ok ((propdown_label zeroModel h020).1,
        (propdown_label zeroModel h020).2,
        List.map (fun _ => oneHotRow (0 : Fin 1)) (List.finRange 20),
        (numpyUniforms 20 zeroRng).2) := by
  unfold sample_lab_given_h
  dsimp only
  rw [collectRows_map_ok _ _ (fun _ => oneHotRow (0 : Fin 1)) ?_]
  · rfl
  · intro jj _
    rw [dif_pos jj.isLt]
    rw [propdown_label_const_one,
      show (numpyUniforms 20 zeroRng).1 jj = 0 from rfl, selectIdx_const_one]

/-- Claim C8: the label sampler draws each one-hot row by inverse-CDF
sampling: a successful selectIdx result is the smallest index whose
cumulative probability is at least the uniform draw; row jj of a
successful sample_lab_given_h output is the one-hot row at the index
selected from the cumulative sums of probability row jj against the
per-row draw; and on probability row [0.2, 0.8] the draw 0.1 selects
index 0 while the draw 0.9 selects index 1. -/
theorem C8_inverse_cdf_sampling :
    (∀ {n : ℕ} (p : Vec n) (d : ℝ) (i : Fin n), selectIdx p d = some i →
        d ≤ cumsumRow p i ∧ ∀ j : Fin n, j < i → ¬ d ≤ cumsumRow p j) ∧
    (∀ {nv nh nl b : ℕ} (m : DRBM nv nh nl) (h0 : Mat b nh) (r : Rng)
        (pre probs : Mat b nl) (rows : List (Vec nl)) (r2 : Rng)
        (jj : Fin 20) (hjj : jj.val < b) (i : Fin nl),
        sample_lab_given_h m h0 r = Except.ok (pre, probs, rows, r2) →
        selectIdx (probs ⟨jj.val, hjj⟩) ((numpyUniforms 20 r).1 jj) = some i →
        rows.get? jj.val = some (oneHotRow i)) ∧
    selectIdx lab02 (0.1 : ℝ) = some 0 ∧
    selectIdx lab02 (0.9 : ℝ) = some 1 := by
  have hc0 : cumsumRow lab02 0 = 0.2 := by
    have hIic : Finset.Iic (0 : Fin 2) = {0} := by decide
    rw [cumsumRow, hIic, Finset.sum_singleton]
    norm_num [lab02]
  have hc1 : cumsumRow lab02 1 = 1 := by
    have hIic : Finset.Iic (1 : Fin 2) = {0, 1} := by decide
    rw [cumsumRow, hIic]
    rw [Finset.sum_pair (by decide)]
    norm_num [lab02]
  refine ⟨fun p d i h => selectIdx_spec p d i h, ?_, ?_, ?_⟩
  · intro nv nh nl b m h0 r pre probs rows r2 jj hjj i hok hsel
    unfold sample_lab_given_h at hok
    dsimp only at hok
    cases hcl : collectRows ((List.finRange 20).map _) with
    | error e =>
      rw [hcl] at hok
      exact absurd hok (by simp [Except.map])
    | ok rows0 =>
      rw [hcl] at hok
      have h := Except.ok.inj hok
      simp only [Prod.mk.injEq] at h
      obtain ⟨hpre, hprobs, hrows, hr2⟩ := h
      subst hprobs
      subst hrows
      have hfr : (List.finRange 20).get? jj.val = some jj := by
        rw [List.get?_eq_get (by simp)]
        exact congrArg some (by apply Fin.ext; simp [List.get_finRange])
      have hgl : ((List.finRange 20).map
          (fun jj => if hjj : jj.val < b then
            match selectIdx ((propdown_label m h0).2 ⟨jj.val, hjj⟩)
                ((numpyUniforms 20 r).1 jj) with
            | some i => Except.ok (oneHotRow i)
            | none => Except.error PyErr.valueError
          else Except.error PyErr.indexError)).get? jj.val =
          some (if hjj : jj.val < b then
            match selectIdx ((propdown_label m h0).2 ⟨jj.val, hjj⟩)
                ((numpyUniforms 20 r).1 jj) with
            | some i => Except.ok (oneHotRow i)
            | none => Except.error PyErr.valueError
          else Except.error PyErr.indexError) := by
        rw [List.get?_map, hfr]
        rfl
      obtain ⟨y, hy, hfy⟩ := collectRows_get _ rows0 hcl jj.val _ hgl
      rw [dif_pos hjj, hsel] at hfy
      rw [hy, Except.ok.inj hfy]
  · have h0mem : (0 : Fin 2) ∈ Finset.univ.filter
        (fun y : Fin 2 => (0.1 : ℝ) ≤ cumsumRow lab02 y) :=
      Finset.mem_filter.mpr ⟨Finset.mem_univ _, by rw [hc0]; norm_num⟩
    unfold selectIdx
    dsimp only
    rw [dif_pos ⟨0, h0mem⟩]
    exact congrArg some (le_antisymm (Finset.min'_le _ 0 h0mem) (Fin.zero_le _))
  · have h1mem : (1 : Fin 2) ∈ Finset.univ.filter
        (fun y : Fin 2 => (0.9 : ℝ) ≤ cumsumRow lab02 y) :=
      Finset.mem_filter.mpr ⟨Finset.mem_univ _, by rw [hc1]; norm_num⟩
    have honly : ∀ y ∈ Finset.univ.filter
        (fun y : Fin 2 => (0.9 : ℝ) ≤ cumsumRow lab02 y), y = 1 := by
      intro y hy
      have hval := (Finset.mem_filter.mp hy).2
      by_contra hne
      have hy0 : y = 0 := by
        apply Fin.ext
        have h2 := y.isLt
        have hne' : (y : ℕ) ≠ 1 := fun hv => hne (Fin.ext hv)
        omega
      subst hy0
      rw [hc0] at hval
      norm_num at hval
    unfold selectIdx
    dsimp only
    rw [dif_pos ⟨1, h1mem⟩]
    exact congrArg some (honly _ (Finset.min'_mem _ _))

/-- Witness for C8: the minimality and one-hot-row conclusions
instantiated on the concrete probability row [0.2, 0.8] and the concrete
20-row zero-model run. -/
theorem C8_inverse_cdf_sampling_witness :
    ((0.1 : ℝ) ≤ cumsumRow lab02 0 ∧
      ∀ j : Fin 2, j < 0 → ¬ (0.1 : ℝ) ≤ cumsumRow lab02 j) ∧
    (List.map (fun _ => oneHotRow (0 : Fin 1)) (List.finRange 20)).get? 3 =
      some (oneHotRow (0 : Fin 1)) :=
  ⟨C8_inverse_cdf_sampling.1 lab02 0.1 0 C8_inverse_cdf_sampling.2.2.1,
   C8_inverse_cdf_sampling.2.1 zeroModel h020 zeroRng
     (propdown_label zeroModel h020).1 (propdown_label zeroModel h020).2
     (List.map (fun _ => oneHotRow (0 : Fin 1)) (List.finRange 20))
     (numpyUniforms 20 zeroRng).2 (3 : Fin 20) (by norm_num) 0
     sample_lab_h020_eval
     (by rw [propdown_label_const_one,
       show (numpyUniforms 20 zeroRng).1 3 = 0 from rfl]
         exact selectIdx_const_one)⟩

/-- Claim C10 (counterexample): on a hidden input with a single row the
label sampler does not return 20 rows — it faults with an IndexError,
because the loop over the 20 hardcoded buffer rows reads row 1 of the
cumulative sums of a 1-row batch. -/
theorem C10_counterexample :
    sample_lab_given_h zeroModel (m11 0) zeroRng = Except.error PyErr.indexError := by
  unfold sample_lab_given_h
  dsimp only
  have hfr : List.finRange 20 =
      (0 : Fin 20) :: (1 : Fin 20) :: (List.finRange 20).drop 2 := by rfl
  rw [hfr, List.map_cons, List.map_cons]
  rw [dif_pos (show ((0 : Fin 20) : ℕ) < 1 by norm_num)]
  rw [propdown_label_const_one,
    show (numpyUniforms 20 zeroRng).1 0 = 0 from rfl, selectIdx_const_one]
  rw [dif_neg (show ¬ ((1 : Fin 20) : ℕ) < 1 by norm_num)]
  rfl

/-- Claim C10 as amended: whenever the input hidden sample has at least
20 rows (and there is at least one label and the numpy draws lie in the
unit interval), sample_lab_given_h succeeds and its label sample has
exactly 20 rows — regardless of any larger batch size — with every
returned row exactly one-hot; for inputs with fewer than 20 rows the
sampler faults instead of returning. -/
theorem C10_label_sample_amended {nv nh nl b : ℕ} (m : DRBM nv nh nl)
    (h0 : Mat b nh) (r : Rng) (hb : 20 ≤ b) (hnl : 0 < nl)
    (hr : ∀ k, 0 ≤ r.numpyStream k ∧ r.numpyStream k < 1) :
    ∃ pre probs rows r2,
      sample_lab_given_h m h0 r = Except.ok (pre, probs, rows, r2) ∧
      rows.length = 20 ∧ ∀ row ∈ rows, ∃ i, row = oneHotRow i := by
  unfold sample_lab_given_h
  dsimp only
  have hallok : ∀ x ∈ (List.finRange 20).map
      (fun jj => if hjj : jj.val < b then
        match selectIdx ((propdown_label m h0).2 ⟨jj.val, hjj⟩)
            ((numpyUniforms 20 r).1 jj) with
        | some i => Except.ok (oneHotRow i)
        | none => Except.error PyErr.valueError
      else Except.error PyErr.indexError), ∃ y, x = Except.ok y := by
    intro x hx
    obtain ⟨jj, _, rfl⟩ := List.mem_map.mp hx
    have hjj : jj.val < b := lt_of_lt_of_le jj.isLt hb
    rw [dif_pos hjj]
    have hd := (hr (r.numpyPos + jj.val)).2
    have hsum := propdown_label_row_sum m h0 ⟨jj.val, hjj⟩ hnl
    have hlast := cumsumRow_last ((propdown_label m h0).2 ⟨jj.val, hjj⟩) hnl
    have hle : (numpyUniforms 20 r).1 jj ≤
        cumsumRow ((propdown_label m h0).2 ⟨jj.val, hjj⟩) ⟨nl - 1, by omega⟩ := by
      rw [hlast, hsum]
      exact le_of_lt hd
    obtain ⟨i, hi⟩ := selectIdx_isSome _ _ _ hle
    rw [hi]
    exact ⟨oneHotRow i, rfl⟩
  obtain ⟨ys, hys, hlen, hmem⟩ := collectRows_ok _ hallok
  refine ⟨_, _, ys, _, by rw [hys]; rfl, by simpa using hlen, ?_⟩
  intro row hrow
  obtain ⟨jj, _, hfe⟩ := List.mem_map.mp (hmem row hrow)
  have hjj : jj.val < b := lt_of_lt_of_le jj.isLt hb
  rw [dif_pos hjj] at hfe
  cases hsel : selectIdx ((propdown_label m h0).2 ⟨jj.val, hjj⟩)
      ((numpyUniforms 20 r).1 jj) with
  | none =>
    rw [hsel] at hfe
    exact absurd hfe (by simp)
  | some i =>
    rw [hsel] at hfe
    exact ⟨i, (Except.ok.inj hfe).symm⟩

/-- Witness for C10: the amended statement instantiated on the zero
one-unit model with a 20-row zero hidden batch and zero draws. -/
theorem C10_label_sample_amended_witness :
    (20 ≤ 20) ∧ (0 < 1) ∧
    ∃ pre probs rows r2,
      sample_lab_given_h zeroModel h020 zeroRng = Except.ok (pre, probs, rows, r2) ∧
      rows.length = 20 ∧ ∀ row ∈ rows, ∃ i, row = oneHotRow i :=
  ⟨le_refl 20, Nat.zero_lt_one,
    C10_label_sample_amended zeroModel h020 zeroRng (le_refl 20) Nat.zero_lt_one
      (fun _ => ⟨le_refl 0, by norm_num [zeroRng]⟩)⟩

end

end DRBMSpec
